import Mathlib

/-!
Verification of the expiring associative container `ExpiringHashMap<K, V>`
from `src/collections.rs` of the `story-teller` repository.

Embedding choices (all definitions are translated from the Rust source):

* `std::time::Instant` is modelled as `Nat` (the number of time units since
  the clock's earliest representable instant, i.e. its epoch); only the
  ordering and subtraction of instants matter to the code.
  `std::time::Duration` is likewise a `Nat`.
  `Instant::checked_sub(d)` returns `None` exactly when `now - d` would lie
  before the epoch, which in this model is `d > now`.
* `HashMap<K, Value<V>>` is modelled as an association list
  `List (K × Nat × V)` holding `(key, last_access, value)` triples with
  pairwise distinct keys (the Rust map cannot hold a key twice); a map entry
  `Value { last_access, value }` is the pair `(last_access, value)`.
* `BinaryHeap<Access<K>>` with the reversed `Ord` on `instant`
  (a min-priority queue on the access instant) is modelled as a list of
  `(instant, key)` pairs kept sorted by ascending instant: `peek` is the
  head, `pop` drops the head, and `push` is ordered insertion. Ties between
  equal instants are broken arbitrarily by the real heap; the model fixes
  one order, which the code's behaviour does not depend on.
* A Rust panic (`Option::expect` on `None`, reachable only in `cleanup`'s
  deadline computation) is modelled by returning `none` from the operation;
  total operations (`remove`, `new`) do not return `Option`.
* `Instant::now()` is an input: each public operation takes the current
  instant `now` as an explicit argument (the Rust code samples the clock at
  the start of the call).
-/

namespace StoryTeller

/-- `Instant::checked_sub`: `none` when the result would precede the epoch. -/
def checkedSub (now : Nat) (d : Nat) : Option Nat :=
  if d ≤ now then some (now - d) else none

section AssocList

variable {K : Type} {A : Type} [DecidableEq K]

/-- Lookup in the association-list model of `HashMap`. -/
def alLookup (k : K) : List (K × A) → Option A
  | [] => none
  | (k', a) :: l => if k' = k then some a else alLookup k l

/-- Removal of a key, as in `HashMap::remove` (drops every pair with that
key; in maps with distinct keys there is at most one). -/
def alErase (k : K) : List (K × A) → List (K × A)
  | [] => []
  | (k', a) :: l => if k' = k then alErase k l else (k', a) :: alErase k l

/-- Insert-or-overwrite, as in `HashMap::insert` (the previous value, which
Rust's `insert` returns, is read off separately with `alLookup`). -/
def alInsert (k : K) (a : A) (m : List (K × A)) : List (K × A) :=
  (k, a) :: alErase k m

theorem alLookup_alErase_self (k : K) (m : List (K × A)) :
    alLookup k (alErase k m) = none := by
  induction m with
  | nil => rfl
  | cons e l ih =>
    obtain ⟨k', a⟩ := e
    by_cases h : k' = k <;> simp [alErase, alLookup, h, ih]

theorem alLookup_alErase_ne (k k' : K) (m : List (K × A)) (h : k' ≠ k) :
    alLookup k' (alErase k m) = alLookup k' m := by
  induction m with
  | nil => rfl
  | cons e l ih =>
    obtain ⟨k'', a⟩ := e
    by_cases h2 : k'' = k
    · have hne : k'' ≠ k' := fun hh => h (hh ▸ h2)
      rw [alErase, if_pos h2, alLookup, if_neg hne]
      exact ih
    · rw [alErase, if_neg h2, alLookup, alLookup]
      by_cases h3 : k'' = k'
      · rw [if_pos h3, if_pos h3]
      · rw [if_neg h3, if_neg h3]
        exact ih

theorem alErase_of_lookup_none (k : K) (m : List (K × A))
    (h : alLookup k m = none) : alErase k m = m := by
  induction m with
  | nil => rfl
  | cons e l ih =>
    obtain ⟨k', a⟩ := e
    by_cases h2 : k' = k
    · simp [alLookup, h2] at h
    · simp only [alLookup, h2, if_false] at h
      simp [alErase, h2, ih h]

theorem alLookup_alInsert_self (k : K) (a : A) (m : List (K × A)) :
    alLookup k (alInsert k a m) = some a := by
  simp [alInsert, alLookup]

theorem alLookup_alInsert_ne (k k' : K) (a : A) (m : List (K × A))
    (h : k' ≠ k) : alLookup k' (alInsert k a m) = alLookup k' m := by
  simp [alInsert, alLookup, Ne.symm h, alLookup_alErase_ne k k' m h]

theorem alErase_sublist (k : K) (m : List (K × A)) :
    (alErase k m).Sublist m := by
  induction m with
  | nil => simp [alErase]
  | cons e l ih =>
    obtain ⟨k', a⟩ := e
    by_cases h : k' = k
    · rw [alErase, if_pos h]
      exact ih.cons _
    · rw [alErase, if_neg h]
      exact ih.cons₂ _

theorem mem_of_alLookup_some (k : K) (a : A) (m : List (K × A))
    (h : alLookup k m = some a) : (k, a) ∈ m := by
  induction m with
  | nil => simp [alLookup] at h
  | cons e l ih =>
    obtain ⟨k', a'⟩ := e
    by_cases h2 : k' = k
    · subst h2
      rw [alLookup, if_pos rfl] at h
      injection h with h
      subst h
      exact List.mem_cons_self _ _
    · rw [alLookup, if_neg h2] at h
      exact List.mem_cons_of_mem _ (ih h)

theorem alLookup_of_mem_nodup (k : K) (a : A) (m : List (K × A))
    (hnd : (m.map Prod.fst).Nodup) (h : (k, a) ∈ m) :
    alLookup k m = some a := by
  induction m with
  | nil => simp at h
  | cons e l ih =>
    obtain ⟨k', a'⟩ := e
    simp only [List.map_cons, List.nodup_cons] at hnd
    rcases List.mem_cons.mp h with h1 | h1
    · injection h1 with h1a h1b
      subst h1a
      subst h1b
      rw [alLookup, if_pos rfl]
    · have hk : k' ≠ k := by
        rintro rfl
        exact hnd.1 (List.mem_map.mpr ⟨(k', a), h1, rfl⟩)
      rw [alLookup, if_neg hk]
      exact ih hnd.2 h1
end AssocList

section HeapModel

variable {K : Type}

/-- `BinaryHeap::push` on the sorted-list model of the min-heap on
`instant`: ordered insertion by ascending instant. -/
def pushLog (a : Nat × K) : List (Nat × K) → List (Nat × K)
  | [] => [a]
  | b :: l => if a.1 ≤ b.1 then a :: b :: l else b :: pushLog a l

/-- The sortedness maintained for the heap model: instants ascend. -/
def LogSorted (l : List (Nat × K)) : Prop :=
  l.Pairwise (fun a b => a.1 ≤ b.1)

instance (l : List (Nat × K)) : Decidable (LogSorted l) := by
  unfold LogSorted
  infer_instance

theorem mem_pushLog (a b : Nat × K) (l : List (Nat × K)) :
    b ∈ pushLog a l ↔ b = a ∨ b ∈ l := by
  induction l with
  | nil => simp [pushLog]
  | cons c l ih =>
    rw [pushLog]
    by_cases h : a.1 ≤ c.1
    · rw [if_pos h]
      simp only [List.mem_cons]
    · rw [if_neg h]
      simp only [List.mem_cons, ih]
      tauto

theorem countP_pushLog (p : Nat × K → Bool) (a : Nat × K)
    (l : List (Nat × K)) :
    (pushLog a l).countP p = (if p a then 1 else 0) + l.countP p := by
  induction l with
  | nil => simp [pushLog, List.countP_cons, List.countP_nil]
  | cons c l ih =>
    rw [pushLog]
    by_cases h : a.1 ≤ c.1
    · rw [if_pos h]
      simp only [List.countP_cons]
      split <;> omega
    · rw [if_neg h]
      simp only [List.countP_cons, ih]
      split <;> omega

theorem logSorted_pushLog (a : Nat × K) (l : List (Nat × K))
    (hs : LogSorted l) : LogSorted (pushLog a l) := by
  induction l with
  | nil => simp [pushLog, LogSorted]
  | cons c l ih =>
    rw [LogSorted, List.pairwise_cons] at hs
    rw [pushLog]
    by_cases h : a.1 ≤ c.1
    · rw [if_pos h]
      refine (List.pairwise_cons.mpr ⟨?_, ?_⟩ : LogSorted _)
      · intro b hb
        rcases List.mem_cons.mp hb with rfl | hb
        · exact h
        · exact le_trans h (hs.1 b hb)
      · exact List.pairwise_cons.mpr hs
    · rw [if_neg h]
      refine (List.pairwise_cons.mpr ⟨?_, ?_⟩ : LogSorted _)
      · intro b hb
        rcases (mem_pushLog a b l).mp hb with rfl | hb
        · exact le_of_not_le h
        · exact hs.1 b hb
      · exact ih hs.2

end HeapModel

/-- State of `ExpiringHashMap<K, V>`: the `map` (entry table), the
`access_log` (min-heap of `Access { instant, key }` records, modelled as a
list sorted by ascending instant) and the configured `duration` (ttl). -/
structure ExpiringHashMap (K V : Type) where
  map : List (K × Nat × V)
  access_log : List (Nat × K)
  duration : Nat
deriving DecidableEq, Repr

section Ops

variable {K V : Type} [DecidableEq K]

/-- `ExpiringHashMap::new(duration)`. -/
def ExpiringHashMap.new (duration : Nat) : ExpiringHashMap K V :=
  { map := [], access_log := [], duration := duration }

omit [DecidableEq K] in
theorem countP_push_lt {deadline t la : Nat} {k k' : K}
    {rest : List (Nat × K)} (h1 : ¬ deadline < t) (h2 : deadline < la) :
    (pushLog (la, k') rest).countP (fun a => decide (a.1 ≤ deadline)) <
      ((t, k) :: rest).countP (fun a => decide (a.1 ≤ deadline)) := by
  rw [countP_pushLog, List.countP_cons]
  simp only [decide_eq_true_eq]
  have hla : ¬ (la ≤ deadline) := by omega
  have ht : t ≤ deadline := by omega
  rw [if_neg hla, if_pos ht]
  omega

omit [DecidableEq K] in
theorem countP_tail_lt {deadline t : Nat} {k : K}
    {rest : List (Nat × K)} (h1 : ¬ deadline < t) :
    rest.countP (fun a => decide (a.1 ≤ deadline)) <
      ((t, k) :: rest).countP (fun a => decide (a.1 ≤ deadline)) := by
  rw [List.countP_cons]
  simp only [decide_eq_true_eq]
  have ht : t ≤ deadline := by omega
  rw [if_pos ht]
  omega

/-- The `while let Some(..) = self.access_log.peek()` loop of
`ExpiringHashMap::cleanup`, acting on the map and the log. Each iteration
pops the earliest record; if its instant is past the deadline the loop
stops. Otherwise: a key absent from the map is dropped (orphaned record), a
key whose real `last_access` is after the deadline is pushed back with that
instant (stale record), and a key whose `last_access` is at or before the
deadline is evicted from the map. -/
def cleanupLoop (deadline : Nat) (m : List (K × Nat × V)) :
    List (Nat × K) → List (K × Nat × V) × List (Nat × K)
  | [] => (m, [])
  | (t, k) :: rest =>
    if deadline < t then (m, (t, k) :: rest)
    else
      match alLookup k m with
      | some (last_access, _) =>
        if deadline < last_access then
          cleanupLoop deadline m (pushLog (last_access, k) rest)
        else
          cleanupLoop deadline (alErase k m) rest
      | none => cleanupLoop deadline m rest
termination_by l => l.countP (fun a => decide (a.1 ≤ deadline))
decreasing_by
  · exact countP_push_lt ‹¬ deadline < t› ‹deadline < last_access›
  · exact countP_tail_lt ‹¬ deadline < t›
  · exact countP_tail_lt ‹¬ deadline < t›

/-- `ExpiringHashMap::cleanup`. The deadline is
`Instant::now().checked_sub(self.duration).expect(..)`: when the checked
subtraction yields `None` the Rust code panics, modelled here as `none`. -/
def ExpiringHashMap.cleanup (s : ExpiringHashMap K V) (now : Nat) :
    Option (ExpiringHashMap K V) :=
  match checkedSub now s.duration with
  | none => none
  | some deadline =>
    let r := cleanupLoop deadline s.map s.access_log
    some { s with map := r.1, access_log := r.2 }

/-- `ExpiringHashMap::insert`: runs `cleanup`, then `self.map.insert(key,
Value { last_access: now, value: v })`; pushes an `Access` record only when
the map insert returned `None` (key not present after cleanup). -/
def ExpiringHashMap.insert (s : ExpiringHashMap K V) (now : Nat)
    (key : K) (v : V) : Option (Option V × ExpiringHashMap K V) :=
  match s.cleanup now with
  | none => none
  | some s1 =>
    match alLookup key s1.map with
    | some prev =>
      some (some prev.2, { s1 with map := alInsert key (now, v) s1.map })
    | none =>
      some (none, { s1 with map := alInsert key (now, v) s1.map,
                            access_log := pushLog (now, key) s1.access_log })

/-- `ExpiringHashMap::get`: runs `cleanup`, then on a hit overwrites the
entry's `last_access` with `now` and returns the value; on a miss returns
`None`. -/
def ExpiringHashMap.get (s : ExpiringHashMap K V) (now : Nat) (k : K) :
    Option (Option V × ExpiringHashMap K V) :=
  match s.cleanup now with
  | none => none
  | some s1 =>
    match alLookup k s1.map with
    | some (_, v) =>
      some (some v, { s1 with map := alInsert k (now, v) s1.map })
    | none => some (none, s1)

/-- `ExpiringHashMap::remove`: `self.map.remove(k).map(|Value { value, .. }|
value)` — no cleanup, no clock read, the access log untouched; total. -/
def ExpiringHashMap.remove (s : ExpiringHashMap K V) (k : K) :
    Option V × ExpiringHashMap K V :=
  ((alLookup k s.map).map (fun e => e.2), { s with map := alErase k s.map })

/-- Auxiliary: the number of loop iterations (heap pops) a run of
`cleanupLoop` performs, following the same recursion. -/
def cleanupIters (deadline : Nat) (m : List (K × Nat × V)) :
    List (Nat × K) → Nat
  | [] => 0
  | (t, k) :: rest =>
    if deadline < t then 0
    else
      match alLookup k m with
      | some (last_access, _) =>
        if deadline < last_access then
          cleanupIters deadline m (pushLog (last_access, k) rest) + 1
        else
          cleanupIters deadline (alErase k m) rest + 1
      | none => cleanupIters deadline m rest + 1
termination_by l => l.countP (fun a => decide (a.1 ≤ deadline))
decreasing_by
  · exact countP_push_lt ‹¬ deadline < t› ‹deadline < last_access›
  · exact countP_tail_lt ‹¬ deadline < t›
  · exact countP_tail_lt ‹¬ deadline < t›

end Ops

section Traces

variable {K V : Type} [DecidableEq K]

/-- A public operation of the container, for building call traces. -/
inductive Op (K V : Type) where
  | ins (k : K) (v : V)
  | read (k : K)
  | del (k : K)
deriving DecidableEq, Repr

/-- One public call at instant `t`, discarding the returned value.
`none` models a panic (only `ins`/`read` can panic, via `cleanup`). -/
def stepOp (t : Nat) (s : ExpiringHashMap K V) :
    Op K V → Option (ExpiringHashMap K V)
  | .ins k v => (s.insert t k v).map (fun r => r.2)
  | .read k => (s.get t k).map (fun r => r.2)
  | .del k => some (s.remove k).2

/-- Run a list of timestamped calls from a given state. -/
def runFrom (s : ExpiringHashMap K V) :
    List (Nat × Op K V) → Option (ExpiringHashMap K V)
  | [] => some s
  | (t, op) :: rest =>
    match stepOp t s op with
    | none => none
    | some s' => runFrom s' rest

/-- Run a list of timestamped calls on a fresh container with ttl `d`. -/
def run (d : Nat) (tr : List (Nat × Op K V)) :
    Option (ExpiringHashMap K V) :=
  runFrom (ExpiringHashMap.new d) tr

/-- Timestamps of a trace are nondecreasing and start no earlier than the
given lower bound. -/
def okTimes : Nat → List (Nat × Op K V) → Bool
  | _, [] => true
  | lo, (t, _) :: rest => decide (lo ≤ t) && okTimes t rest

/-- The last timestamp of a trace (or the lower bound for an empty one). -/
def endTime : Nat → List (Nat × Op K V) → Nat
  | lo, [] => lo
  | _, (t, _) :: rest => endTime t rest

/-- Pointwise function update (used by the reference semantics). -/
def updFn (g : K → Option Nat) (k : K) (v : Option Nat) : K → Option Nat :=
  fun k' => if k' = k then v else g k'

/-- Modelled from the spec (reference semantics for the refinement claim):
the *true last-access time* of each key, tracked directly from the call
trace with no freshness index and no cleanup. An insert stamps the key with
the current instant; a get refreshes the stamp exactly when the key is
visible (its age is strictly below the ttl); a remove discards the key's
stamp. -/
def specStep (d : Nat) (t : Nat) (g : K → Option Nat) :
    Op K V → (K → Option Nat)
  | .ins k _ => updFn g k (some t)
  | .read k =>
    match g k with
    | some la => if t - la < d then updFn g k (some t) else g
    | none => g
  | .del k => updFn g k none

/-- Reference last-access map after a whole trace. -/
def specRun (d : Nat) (g : K → Option Nat) :
    List (Nat × Op K V) → (K → Option Nat)
  | [] => g
  | (t, op) :: rest => specRun d (specStep d t g op) rest

/-- Does `get` at instant `now` return a value for key `k`? -/
def visibleKey (now : Nat) (k : K) (s : ExpiringHashMap K V) : Bool :=
  match s.get now k with
  | some (some _, _) => true
  | _ => false

/-- Modelled from the spec: visibility predicted by the reference
semantics — the key carries a true last-access stamp strictly younger
than the ttl. -/
def specVisible (d : Nat) (tr : List (Nat × Op K V)) (now : Nat) (k : K) :
    Bool :=
  match specRun d (fun _ => none) tr k with
  | some la => decide (now - la < d)
  | none => false

/-- Every key of the entry table has a record in the access log whose
instant is at or before the entry's `last_access` (decidable form). -/
def trackedB (s : ExpiringHashMap K V) : Bool :=
  s.map.all (fun e =>
    s.access_log.any (fun a => decide (a.2 = e.1) && decide (a.1 ≤ e.2.1)))

/-- All entry timestamps are at or before the given instant (decidable
form). -/
def stampedBy (now : Nat) (s : ExpiringHashMap K V) : Bool :=
  s.map.all (fun e => decide (e.2.1 ≤ now))

end Traces

section CleanupLemmas

variable {K V : Type} [DecidableEq K]

theorem alLookup_alErase_none {k k' : K} {m : List (K × Nat × V)}
    (h : alLookup k m = none) : alLookup k (alErase k' m) = none := by
  by_cases hk : k = k'
  · subst hk
    exact alLookup_alErase_self k m
  · rw [alLookup_alErase_ne k' k m hk]
    exact h

/-- Unfolding equation: empty log. -/
theorem cleanupLoop_nil {deadline : Nat} (m : List (K × Nat × V)) :
    cleanupLoop deadline m ([] : List (Nat × K)) = (m, []) := by
  simp [cleanupLoop]

/-- Unfolding equation: the earliest record is past the deadline, the loop
returns. -/
theorem cleanupLoop_stop {deadline t : Nat} {k : K}
    (m : List (K × Nat × V)) (rest : List (Nat × K)) (h : deadline < t) :
    cleanupLoop deadline m ((t, k) :: rest) = (m, (t, k) :: rest) := by
  rw [cleanupLoop, if_pos h]

/-- Unfolding equation: stale record, the entry's real `last_access` is
pushed back. -/
theorem cleanupLoop_requeue {deadline t la : Nat} {k : K} {v : V}
    (m : List (K × Nat × V)) (rest : List (Nat × K)) (h1 : ¬ deadline < t)
    (h2 : alLookup k m = some (la, v)) (h3 : deadline < la) :
    cleanupLoop deadline m ((t, k) :: rest) =
      cleanupLoop deadline m (pushLog (la, k) rest) := by
  rw [cleanupLoop, if_neg h1]
  simp only [h2, if_pos h3]

/-- Unfolding equation: genuinely expired entry, evicted from the table. -/
theorem cleanupLoop_evict {deadline t la : Nat} {k : K} {v : V}
    (m : List (K × Nat × V)) (rest : List (Nat × K)) (h1 : ¬ deadline < t)
    (h2 : alLookup k m = some (la, v)) (h3 : ¬ deadline < la) :
    cleanupLoop deadline m ((t, k) :: rest) =
      cleanupLoop deadline (alErase k m) rest := by
  rw [cleanupLoop, if_neg h1]
  simp only [h2, if_neg h3]

/-- Unfolding equation: orphaned record (key no longer in the table),
discarded. -/
theorem cleanupLoop_orphan {deadline t : Nat} {k : K}
    (m : List (K × Nat × V)) (rest : List (Nat × K)) (h1 : ¬ deadline < t)
    (h2 : alLookup k m = none) :
    cleanupLoop deadline m ((t, k) :: rest) = cleanupLoop deadline m rest := by
  rw [cleanupLoop, if_neg h1]
  simp only [h2]

/-- Cleanup never creates entries: a key absent from the table before a
cleanup pass is absent after it. -/
theorem cleanupLoop_map_none (deadline : Nat) {k : K}
    (m : List (K × Nat × V)) (l : List (Nat × K)) :
    alLookup k m = none → alLookup k (cleanupLoop deadline m l).1 = none := by
  induction m, l using @cleanupLoop.induct K V _ deadline with
  | case1 m =>
    intro h
    simpa [cleanupLoop_nil] using h
  | case2 m t k' rest ht =>
    intro h
    simpa [cleanupLoop_stop m rest ht] using h
  | case3 m t k' rest ht la v hl hla ih =>
    intro h
    rw [cleanupLoop_requeue m rest ht hl hla]
    exact ih h
  | case4 m t k' rest ht la v hl hla ih =>
    intro h
    rw [cleanupLoop_evict m rest ht hl hla]
    exact ih (alLookup_alErase_none h)
  | case5 m t k' rest ht hl ih =>
    intro h
    rw [cleanupLoop_orphan m rest ht hl]
    exact ih h

/-- Cleanup keeps every entry whose `last_access` is after the deadline,
unchanged. -/
theorem cleanupLoop_map_fresh (deadline : Nat) {k : K} {la : Nat} {v : V}
    (m : List (K × Nat × V)) (l : List (Nat × K)) :
    alLookup k m = some (la, v) → deadline < la →
      alLookup k (cleanupLoop deadline m l).1 = some (la, v) := by
  induction m, l using @cleanupLoop.induct K V _ deadline with
  | case1 m =>
    intro h hd
    simpa [cleanupLoop_nil] using h
  | case2 m t k' rest ht =>
    intro h hd
    simpa [cleanupLoop_stop m rest ht] using h
  | case3 m t k' rest ht la' v' hl hla ih =>
    intro h hd
    rw [cleanupLoop_requeue m rest ht hl hla]
    exact ih h hd
  | case4 m t k' rest ht la' v' hl hla ih =>
    intro h hd
    rw [cleanupLoop_evict m rest ht hl hla]
    refine ih ?_ hd
    have hk : k ≠ k' := by
      rintro rfl
      rw [h] at hl
      injection hl with hl
      exact hla (by injection hl with h1 h2; omega)
    rw [alLookup_alErase_ne k' k m hk]
    exact h
  | case5 m t k' rest ht hl ih =>
    intro h hd
    rw [cleanupLoop_orphan m rest ht hl]
    exact ih h hd

/-- Cleanup evicts every entry whose `last_access` is at or before the
deadline, provided some record for its key at or before its `last_access`
is in the (sorted) log. -/
theorem cleanupLoop_map_stale (deadline : Nat) {k : K} {la : Nat} {v : V}
    (m : List (K × Nat × V)) (l : List (Nat × K)) :
    LogSorted l → alLookup k m = some (la, v) → la ≤ deadline →
      (∃ t, (t, k) ∈ l ∧ t ≤ la) →
      alLookup k (cleanupLoop deadline m l).1 = none := by
  induction m, l using @cleanupLoop.induct K V _ deadline with
  | case1 m =>
    intro hs h hd hrec
    obtain ⟨t, ht, _⟩ := hrec
    simp at ht
  | case2 m t k' rest ht =>
    intro hs h hd hrec
    obtain ⟨t0, ht0, hle⟩ := hrec
    rw [LogSorted, List.pairwise_cons] at hs
    rcases List.mem_cons.mp ht0 with heq | hmem
    · injection heq with h1 h2
      omega
    · have := hs.1 _ hmem
      simp only at this
      omega
  | case3 m t k' rest ht la' v' hl hla ih =>
    intro hs h hd hrec
    rw [cleanupLoop_requeue m rest ht hl hla]
    rw [LogSorted, List.pairwise_cons] at hs
    have hk : k ≠ k' := by
      rintro rfl
      rw [h] at hl
      injection hl with hl
      injection hl with h1 h2
      omega
    obtain ⟨t0, ht0, hle⟩ := hrec
    rcases List.mem_cons.mp ht0 with heq | hmem
    · exact absurd (congrArg Prod.snd heq) hk
    · exact ih (logSorted_pushLog _ _ hs.2) h hd
        ⟨t0, (mem_pushLog _ _ _).mpr (Or.inr hmem), hle⟩
  | case4 m t k' rest ht la' v' hl hla ih =>
    intro hs h hd hrec
    rw [cleanupLoop_evict m rest ht hl hla]
    rw [LogSorted, List.pairwise_cons] at hs
    by_cases hk : k = k'
    · subst hk
      exact cleanupLoop_map_none deadline _ _ (alLookup_alErase_self k m)
    · obtain ⟨t0, ht0, hle⟩ := hrec
      rcases List.mem_cons.mp ht0 with heq | hmem
      · exact absurd (congrArg Prod.snd heq) hk
      · refine ih hs.2 ?_ hd ⟨t0, hmem, hle⟩
        rw [alLookup_alErase_ne k' k m hk]
        exact h
  | case5 m t k' rest ht hl ih =>
    intro hs h hd hrec
    rw [cleanupLoop_orphan m rest ht hl]
    rw [LogSorted, List.pairwise_cons] at hs
    have hk : k ≠ k' := by
      rintro rfl
      rw [h] at hl
      exact Option.noConfusion hl
    obtain ⟨t0, ht0, hle⟩ := hrec
    rcases List.mem_cons.mp ht0 with heq | hmem
    · exact absurd (congrArg Prod.snd heq) hk
    · exact ih hs.2 h hd ⟨t0, hmem, hle⟩

/-- The cleaned table is a sublist of the original: cleanup only evicts. -/
theorem cleanupLoop_map_sublist (deadline : Nat)
    (m : List (K × Nat × V)) (l : List (Nat × K)) :
    ((cleanupLoop deadline m l).1).Sublist m := by
  induction m, l using @cleanupLoop.induct K V _ deadline with
  | case1 m =>
    rw [cleanupLoop_nil]
  | case2 m t k' rest ht =>
    rw [cleanupLoop_stop m rest ht]
  | case3 m t k' rest ht la v hl hla ih =>
    rw [cleanupLoop_requeue m rest ht hl hla]
    exact ih
  | case4 m t k' rest ht la v hl hla ih =>
    rw [cleanupLoop_evict m rest ht hl hla]
    exact ih.trans (alErase_sublist k' m)
  | case5 m t k' rest ht hl ih =>
    rw [cleanupLoop_orphan m rest ht hl]
    exact ih

/-- Cleanup keeps the log sorted. -/
theorem cleanupLoop_log_sorted (deadline : Nat)
    (m : List (K × Nat × V)) (l : List (Nat × K)) :
    LogSorted l → LogSorted (cleanupLoop deadline m l).2 := by
  induction m, l using @cleanupLoop.induct K V _ deadline with
  | case1 m =>
    intro _
    rw [cleanupLoop_nil]
    exact List.Pairwise.nil
  | case2 m t k' rest ht =>
    intro h
    rw [cleanupLoop_stop m rest ht]
    exact h
  | case3 m t k' rest ht la v hl hla ih =>
    intro h
    rw [cleanupLoop_requeue m rest ht hl hla]
    exact ih (logSorted_pushLog _ _ (List.pairwise_cons.mp h).2)
  | case4 m t k' rest ht la v hl hla ih =>
    intro h
    rw [cleanupLoop_evict m rest ht hl hla]
    exact ih (List.pairwise_cons.mp h).2
  | case5 m t k' rest ht hl ih =>
    intro h
    rw [cleanupLoop_orphan m rest ht hl]
    exact ih (List.pairwise_cons.mp h).2

/-- Every record in the cleaned log was in the original log or was
re-queued with an instant strictly past the deadline. -/
theorem cleanupLoop_log_mem (deadline : Nat)
    (m : List (K × Nat × V)) (l : List (Nat × K)) (a : Nat × K) :
    a ∈ (cleanupLoop deadline m l).2 → a ∈ l ∨ deadline < a.1 := by
  induction m, l using @cleanupLoop.induct K V _ deadline with
  | case1 m =>
    rw [cleanupLoop_nil]
    intro h
    simp at h
  | case2 m t k' rest ht =>
    rw [cleanupLoop_stop m rest ht]
    exact fun h => Or.inl h
  | case3 m t k' rest ht la v hl hla ih =>
    rw [cleanupLoop_requeue m rest ht hl hla]
    intro h
    rcases ih h with h2 | h2
    · rcases (mem_pushLog _ _ _).mp h2 with rfl | h3
      · exact Or.inr hla
      · exact Or.inl (List.mem_cons_of_mem _ h3)
    · exact Or.inr h2
  | case4 m t k' rest ht la v hl hla ih =>
    rw [cleanupLoop_evict m rest ht hl hla]
    intro h
    rcases ih h with h2 | h2
    · exact Or.inl (List.mem_cons_of_mem _ h2)
    · exact Or.inr h2
  | case5 m t k' rest ht hl ih =>
    rw [cleanupLoop_orphan m rest ht hl]
    intro h
    rcases ih h with h2 | h2
    · exact Or.inl (List.mem_cons_of_mem _ h2)
    · exact Or.inr h2

/-- Every table key has a log record at or before its `last_access`. -/
def TrackedP (m : List (K × Nat × V)) (l : List (Nat × K)) : Prop :=
  ∀ k la v, alLookup k m = some (la, v) → ∃ t, (t, k) ∈ l ∧ t ≤ la

/-- Cleanup preserves the tracking invariant: keys that survive still have
a record at or before their `last_access` (re-queued if their only record
was popped). -/
theorem cleanupLoop_tracked (deadline : Nat)
    (m : List (K × Nat × V)) (l : List (Nat × K)) :
    TrackedP m l →
      TrackedP (cleanupLoop deadline m l).1 (cleanupLoop deadline m l).2 := by
  induction m, l using @cleanupLoop.induct K V _ deadline with
  | case1 m =>
    rw [cleanupLoop_nil]
    exact id
  | case2 m t k' rest ht =>
    rw [cleanupLoop_stop m rest ht]
    exact id
  | case3 m t k' rest ht la v hl hla ih =>
    rw [cleanupLoop_requeue m rest ht hl hla]
    intro htr
    refine ih ?_
    intro k0 la0 v0 h0
    obtain ⟨t0, hmem, hle⟩ := htr k0 la0 v0 h0
    rcases List.mem_cons.mp hmem with heq | hmem2
    · have hk0 : k0 = k' := congrArg Prod.snd heq
      subst hk0
      rw [h0] at hl
      injection hl with hl
      injection hl with h1 h2
      exact ⟨la, (mem_pushLog _ _ _).mpr (Or.inl rfl), by omega⟩
    · exact ⟨t0, (mem_pushLog _ _ _).mpr (Or.inr hmem2), hle⟩
  | case4 m t k' rest ht la v hl hla ih =>
    rw [cleanupLoop_evict m rest ht hl hla]
    intro htr
    refine ih ?_
    intro k0 la0 v0 h0
    have hk : k0 ≠ k' := by
      rintro rfl
      rw [alLookup_alErase_self] at h0
      exact Option.noConfusion h0
    rw [alLookup_alErase_ne k' k0 m hk] at h0
    obtain ⟨t0, hmem, hle⟩ := htr k0 la0 v0 h0
    rcases List.mem_cons.mp hmem with heq | hmem2
    · exact absurd (congrArg Prod.snd heq) hk
    · exact ⟨t0, hmem2, hle⟩
  | case5 m t k' rest ht hl ih =>
    rw [cleanupLoop_orphan m rest ht hl]
    intro htr
    refine ih ?_
    intro k0 la0 v0 h0
    have hk : k0 ≠ k' := by
      rintro rfl
      rw [h0] at hl
      exact Option.noConfusion hl
    obtain ⟨t0, hmem, hle⟩ := htr k0 la0 v0 h0
    rcases List.mem_cons.mp hmem with heq | hmem2
    · exact absurd (congrArg Prod.snd heq) hk
    · exact ⟨t0, hmem2, hle⟩

/-- Unfolding equations for the iteration counter. -/
theorem cleanupIters_nil {deadline : Nat} (m : List (K × Nat × V)) :
    cleanupIters deadline m ([] : List (Nat × K)) = 0 := by
  simp [cleanupIters]

theorem cleanupIters_stop {deadline t : Nat} {k : K}
    (m : List (K × Nat × V)) (rest : List (Nat × K)) (h : deadline < t) :
    cleanupIters deadline m ((t, k) :: rest) = 0 := by
  rw [cleanupIters, if_pos h]

theorem cleanupIters_requeue {deadline t la : Nat} {k : K} {v : V}
    (m : List (K × Nat × V)) (rest : List (Nat × K)) (h1 : ¬ deadline < t)
    (h2 : alLookup k m = some (la, v)) (h3 : deadline < la) :
    cleanupIters deadline m ((t, k) :: rest) =
      cleanupIters deadline m (pushLog (la, k) rest) + 1 := by
  rw [cleanupIters, if_neg h1]
  simp only [h2, if_pos h3]

theorem cleanupIters_evict {deadline t la : Nat} {k : K} {v : V}
    (m : List (K × Nat × V)) (rest : List (Nat × K)) (h1 : ¬ deadline < t)
    (h2 : alLookup k m = some (la, v)) (h3 : ¬ deadline < la) :
    cleanupIters deadline m ((t, k) :: rest) =
      cleanupIters deadline (alErase k m) rest + 1 := by
  rw [cleanupIters, if_neg h1]
  simp only [h2, if_neg h3]

theorem cleanupIters_orphan {deadline t : Nat} {k : K}
    (m : List (K × Nat × V)) (rest : List (Nat × K)) (h1 : ¬ deadline < t)
    (h2 : alLookup k m = none) :
    cleanupIters deadline m ((t, k) :: rest) =
      cleanupIters deadline m rest + 1 := by
  rw [cleanupIters, if_neg h1]
  simp only [h2]

end CleanupLemmas

section Invariant

variable {K V : Type} [DecidableEq K]

theorem mem_alErase {k : K} {e : K × Nat × V} {m : List (K × Nat × V)}
    (h : e ∈ alErase k m) : e ∈ m ∧ e.1 ≠ k := by
  induction m with
  | nil => simp [alErase] at h
  | cons c l ih =>
    obtain ⟨k', a⟩ := c
    by_cases h2 : k' = k
    · rw [alErase, if_pos h2] at h
      obtain ⟨h3, h4⟩ := ih h
      exact ⟨List.mem_cons_of_mem _ h3, h4⟩
    · rw [alErase, if_neg h2] at h
      rcases List.mem_cons.mp h with rfl | h3
      · exact ⟨List.mem_cons_self _ _, h2⟩
      · obtain ⟨h4, h5⟩ := ih h3
        exact ⟨List.mem_cons_of_mem _ h4, h5⟩

theorem nodup_alInsert (k : K) (a : Nat × V) (m : List (K × Nat × V))
    (h : (m.map Prod.fst).Nodup) :
    (((alInsert k a m).map Prod.fst)).Nodup := by
  rw [alInsert, List.map_cons, List.nodup_cons]
  constructor
  · intro hmem
    obtain ⟨e, he, hfst⟩ := List.mem_map.mp hmem
    exact (mem_alErase he).2 hfst
  · exact ((alErase_sublist k m).map Prod.fst).nodup h

/-- Eliminating a successful `cleanup`: the ttl fits below `now` and the
result is `cleanupLoop` at deadline `now - ttl`. -/
theorem cleanup_eq {t : Nat} {s s1 : ExpiringHashMap K V}
    (hc : s.cleanup t = some s1) :
    s.duration ≤ t ∧
      s1 = { s with
             map := (cleanupLoop (t - s.duration) s.map s.access_log).1,
             access_log :=
               (cleanupLoop (t - s.duration) s.map s.access_log).2 } := by
  rw [ExpiringHashMap.cleanup, checkedSub] at hc
  by_cases h : s.duration ≤ t
  · rw [if_pos h] at hc
    simp only [Option.some.injEq] at hc
    exact ⟨h, hc.symm⟩
  · rw [if_neg h] at hc
    exact Option.noConfusion hc

/-- Introducing a successful `cleanup` whenever the ttl fits below `now`. -/
theorem cleanup_of_le {t : Nat} (s : ExpiringHashMap K V)
    (h : s.duration ≤ t) :
    s.cleanup t =
      some { s with
             map := (cleanupLoop (t - s.duration) s.map s.access_log).1,
             access_log :=
               (cleanupLoop (t - s.duration) s.map s.access_log).2 } := by
  rw [ExpiringHashMap.cleanup, checkedSub, if_pos h]

/-- `cleanup` panics (returns `none`) exactly when elapsed time since the
clock's epoch is smaller than the ttl. -/
theorem cleanup_eq_none {t : Nat} (s : ExpiringHashMap K V)
    (h : t < s.duration) : s.cleanup t = none := by
  rw [ExpiringHashMap.cleanup, checkedSub, if_neg (by omega)]

/-- The state invariant tying a container state `s` (after a trace whose
timestamps are bounded by `T`) to the reference last-access map `g`:
the ttl is `d`; table keys are distinct; the log is sorted; every table key
has a log record at or before its `last_access`; entry timestamps are at
most `T`; the stored `last_access` of a present key is its true last-access
time; a key tracked by `g` but absent from the table expired at or before
`T`. -/
structure Inv (d T : Nat) (s : ExpiringHashMap K V) (g : K → Option Nat) :
    Prop where
  dEq : s.duration = d
  nodup : (s.map.map Prod.fst).Nodup
  sorted : LogSorted s.access_log
  tracked : TrackedP s.map s.access_log
  mapLe : ∀ k la v, alLookup k s.map = some (la, v) → la ≤ T
  mapGhost : ∀ k la v, alLookup k s.map = some (la, v) → g k = some la
  ghostGone : ∀ k la, g k = some la → alLookup k s.map = none → la + d ≤ T

/-- A successful cleanup pass preserves the invariant (advancing the time
bound) and leaves exactly the entries whose age is strictly below the ttl,
unchanged. -/
theorem cleanup_inv {d T t : Nat} {s s1 : ExpiringHashMap K V}
    {g : K → Option Nat} (hInv : Inv d T s g) (hT : T ≤ t)
    (hc : s.cleanup t = some s1) :
    Inv d t s1 g ∧ d ≤ t ∧
      (∀ k la v, alLookup k s1.map = some (la, v) ↔
        alLookup k s.map = some (la, v) ∧ t - la < d) := by
  obtain ⟨hdt, rfl⟩ := cleanup_eq hc
  rw [hInv.dEq] at hdt
  set dl := t - s.duration with hdl
  have hdld : dl = t - d := by rw [hdl, hInv.dEq]
  have hsub := cleanupLoop_map_sublist dl s.map s.access_log
  have hfwd : ∀ k la v,
      alLookup k (cleanupLoop dl s.map s.access_log).1 = some (la, v) →
        alLookup k s.map = some (la, v) := by
    intro k la v h
    exact alLookup_of_mem_nodup k (la, v) s.map hInv.nodup
      ((hsub.subset) (mem_of_alLookup_some k (la, v) _ h))
  have hchar : ∀ k la v,
      alLookup k (cleanupLoop dl s.map s.access_log).1 = some (la, v) ↔
        alLookup k s.map = some (la, v) ∧ t - la < d := by
    intro k la v
    constructor
    · intro h
      have h2 := hfwd k la v h
      refine ⟨h2, ?_⟩
      have hla : la ≤ T := hInv.mapLe k la v h2
      by_cases h3 : dl < la
      · omega
      · exfalso
        obtain ⟨t0, hmem, hle⟩ := hInv.tracked k la v h2
        have := cleanupLoop_map_stale dl s.map s.access_log hInv.sorted h2
          (by omega) ⟨t0, hmem, hle⟩
        rw [h] at this
        exact Option.noConfusion this
    · rintro ⟨h2, h3⟩
      have hla : la ≤ T := hInv.mapLe k la v h2
      exact cleanupLoop_map_fresh dl s.map s.access_log h2 (by omega)
  refine ⟨⟨hInv.dEq, ?_, ?_, ?_, ?_, ?_, ?_⟩, hdt, hchar⟩
  · exact (hsub.map Prod.fst).nodup hInv.nodup
  · exact cleanupLoop_log_sorted dl s.map s.access_log hInv.sorted
  · exact cleanupLoop_tracked dl s.map s.access_log hInv.tracked
  · intro k la v h
    exact le_trans (hInv.mapLe k la v (hfwd k la v h)) hT
  · intro k la v h
    exact hInv.mapGhost k la v (hfwd k la v h)
  · intro k la hg hnone
    cases h2 : alLookup k s.map with
    | none => exact le_trans (hInv.ghostGone k la hg h2) hT
    | some e =>
      obtain ⟨la2, v2⟩ := e
      have : la2 = la := by
        have := hInv.mapGhost k la2 v2 h2
        rw [hg] at this
        injection this with this
        omega
      subst this
      by_cases h3 : dl < la2
      · exfalso
        have := cleanupLoop_map_fresh dl s.map s.access_log h2 h3
        rw [hnone] at this
        exact Option.noConfusion this
      · omega

theorem updFn_self (g : K → Option Nat) (k : K) (v : Option Nat) :
    updFn g k v k = v := by
  simp [updFn]

theorem updFn_ne {k k' : K} (g : K → Option Nat) (v : Option Nat)
    (h : k' ≠ k) : updFn g k v k' = g k' := by
  simp [updFn, h]

/-- Every public operation preserves the invariant, advancing the time
bound to the call instant and updating the reference last-access map. -/
theorem stepOp_inv {d T t : Nat} {s s1 : ExpiringHashMap K V}
    {g : K → Option Nat} {op : Op K V} (hInv : Inv d T s g) (hT : T ≤ t)
    (hs : stepOp t s op = some s1) :
    Inv d t s1 (specStep d t g op) := by
  cases op with
  | del k =>
    simp only [stepOp, ExpiringHashMap.remove, Option.some.injEq] at hs
    subst hs
    refine ⟨hInv.dEq, ?_, hInv.sorted, ?_, ?_, ?_, ?_⟩
    · exact ((alErase_sublist k s.map).map Prod.fst).nodup hInv.nodup
    · intro k0 la v h0
      by_cases hk : k0 = k
      · subst hk
        rw [alLookup_alErase_self] at h0
        exact Option.noConfusion h0
      · rw [alLookup_alErase_ne k k0 s.map hk] at h0
        exact hInv.tracked k0 la v h0
    · intro k0 la v h0
      by_cases hk : k0 = k
      · subst hk
        rw [alLookup_alErase_self] at h0
        exact Option.noConfusion h0
      · rw [alLookup_alErase_ne k k0 s.map hk] at h0
        exact le_trans (hInv.mapLe k0 la v h0) hT
    · intro k0 la v h0
      by_cases hk : k0 = k
      · subst hk
        rw [alLookup_alErase_self] at h0
        exact Option.noConfusion h0
      · rw [alLookup_alErase_ne k k0 s.map hk] at h0
        rw [specStep, updFn_ne g _ hk]
        exact hInv.mapGhost k0 la v h0
    · intro k0 la hg hnone
      by_cases hk : k0 = k
      · subst hk
        rw [specStep, updFn_self] at hg
        exact Option.noConfusion hg
      · rw [specStep, updFn_ne g _ hk] at hg
        rw [alLookup_alErase_ne k k0 s.map hk] at hnone
        exact le_trans (hInv.ghostGone k0 la hg hnone) hT
  | ins k v =>
    simp only [stepOp] at hs
    cases hc : s.cleanup t with
    | none =>
      rw [ExpiringHashMap.insert, hc] at hs
      exact Option.noConfusion hs
    | some sc =>
      obtain ⟨hInv2, hdt, hchar⟩ := cleanup_inv hInv hT hc
      rw [ExpiringHashMap.insert, hc] at hs
      cases hl : alLookup k sc.map with
      | some prev =>
        simp only [hl, Option.map_some', Option.some.injEq] at hs
        subst hs
        refine ⟨hInv2.dEq, nodup_alInsert k (t, v) sc.map hInv2.nodup,
          hInv2.sorted, ?_, ?_, ?_, ?_⟩
        · intro k0 la0 v0 h0
          by_cases hk : k0 = k
          · subst hk
            rw [alLookup_alInsert_self] at h0
            injection h0 with h0
            injection h0 with h0a h0b
            obtain ⟨la1, v1⟩ := prev
            obtain ⟨t0, hmem, hle⟩ := hInv2.tracked k0 la1 v1 hl
            have := hInv2.mapLe k0 la1 v1 hl
            exact ⟨t0, hmem, by omega⟩
          · rw [alLookup_alInsert_ne k k0 (t, v) sc.map hk] at h0
            exact hInv2.tracked k0 la0 v0 h0
        · intro k0 la0 v0 h0
          by_cases hk : k0 = k
          · subst hk
            rw [alLookup_alInsert_self] at h0
            injection h0 with h0
            injection h0 with h0a h0b
            omega
          · rw [alLookup_alInsert_ne k k0 (t, v) sc.map hk] at h0
            exact hInv2.mapLe k0 la0 v0 h0
        · intro k0 la0 v0 h0
          by_cases hk : k0 = k
          · subst hk
            rw [alLookup_alInsert_self] at h0
            injection h0 with h0
            injection h0 with h0a h0b
            rw [specStep, updFn_self]
            rw [h0a]
          · rw [alLookup_alInsert_ne k k0 (t, v) sc.map hk] at h0
            rw [specStep, updFn_ne g _ hk]
            exact hInv2.mapGhost k0 la0 v0 h0
        · intro k0 la0 hg hnone
          by_cases hk : k0 = k
          · subst hk
            rw [alLookup_alInsert_self] at hnone
            exact Option.noConfusion hnone
          · rw [specStep, updFn_ne g _ hk] at hg
            rw [alLookup_alInsert_ne k k0 (t, v) sc.map hk] at hnone
            exact hInv2.ghostGone k0 la0 hg hnone
      | none =>
        simp only [hl, Option.map_some', Option.some.injEq] at hs
        subst hs
        refine ⟨hInv2.dEq, nodup_alInsert k (t, v) sc.map hInv2.nodup,
          logSorted_pushLog _ _ hInv2.sorted, ?_, ?_, ?_, ?_⟩
        · intro k0 la0 v0 h0
          by_cases hk : k0 = k
          · subst hk
            rw [alLookup_alInsert_self] at h0
            injection h0 with h0
            injection h0 with h0a h0b
            exact ⟨t, (mem_pushLog _ _ _).mpr (Or.inl rfl), by omega⟩
          · rw [alLookup_alInsert_ne k k0 (t, v) sc.map hk] at h0
            obtain ⟨t0, hmem, hle⟩ := hInv2.tracked k0 la0 v0 h0
            exact ⟨t0, (mem_pushLog _ _ _).mpr (Or.inr hmem), hle⟩
        · intro k0 la0 v0 h0
          by_cases hk : k0 = k
          · subst hk
            rw [alLookup_alInsert_self] at h0
            injection h0 with h0
            injection h0 with h0a h0b
            omega
          · rw [alLookup_alInsert_ne k k0 (t, v) sc.map hk] at h0
            exact hInv2.mapLe k0 la0 v0 h0
        · intro k0 la0 v0 h0
          by_cases hk : k0 = k
          · subst hk
            rw [alLookup_alInsert_self] at h0
            injection h0 with h0
            injection h0 with h0a h0b
            rw [specStep, updFn_self]
            rw [h0a]
          · rw [alLookup_alInsert_ne k k0 (t, v) sc.map hk] at h0
            rw [specStep, updFn_ne g _ hk]
            exact hInv2.mapGhost k0 la0 v0 h0
        · intro k0 la0 hg hnone
          by_cases hk : k0 = k
          · subst hk
            rw [alLookup_alInsert_self] at hnone
            exact Option.noConfusion hnone
          · rw [specStep, updFn_ne g _ hk] at hg
            rw [alLookup_alInsert_ne k k0 (t, v) sc.map hk] at hnone
            exact hInv2.ghostGone k0 la0 hg hnone
  | read k =>
    simp only [stepOp] at hs
    cases hc : s.cleanup t with
    | none =>
      rw [ExpiringHashMap.get, hc] at hs
      exact Option.noConfusion hs
    | some sc =>
      obtain ⟨hInv2, hdt, hchar⟩ := cleanup_inv hInv hT hc
      rw [ExpiringHashMap.get, hc] at hs
      cases hl : alLookup k sc.map with
      | some e =>
        obtain ⟨la1, v1⟩ := e
        simp only [hl, Option.map_some', Option.some.injEq] at hs
        subst hs
        have hgk : g k = some la1 := hInv2.mapGhost k la1 v1 hl
        have hcond : t - la1 < d := ((hchar k la1 v1).mp hl).2
        have hspec : specStep (V := V) d t g (Op.read k) = updFn g k (some t) := by
          simp only [specStep, hgk]
          rw [if_pos hcond]
        rw [hspec]
        refine ⟨hInv2.dEq, nodup_alInsert k (t, v1) sc.map hInv2.nodup,
          hInv2.sorted, ?_, ?_, ?_, ?_⟩
        · intro k0 la0 v0 h0
          by_cases hk : k0 = k
          · subst hk
            rw [alLookup_alInsert_self] at h0
            injection h0 with h0
            injection h0 with h0a h0b
            obtain ⟨t0, hmem, hle⟩ := hInv2.tracked k0 la1 v1 hl
            have := hInv2.mapLe k0 la1 v1 hl
            exact ⟨t0, hmem, by omega⟩
          · rw [alLookup_alInsert_ne k k0 (t, v1) sc.map hk] at h0
            exact hInv2.tracked k0 la0 v0 h0
        · intro k0 la0 v0 h0
          by_cases hk : k0 = k
          · subst hk
            rw [alLookup_alInsert_self] at h0
            injection h0 with h0
            injection h0 with h0a h0b
            omega
          · rw [alLookup_alInsert_ne k k0 (t, v1) sc.map hk] at h0
            exact hInv2.mapLe k0 la0 v0 h0
        · intro k0 la0 v0 h0
          by_cases hk : k0 = k
          · subst hk
            rw [alLookup_alInsert_self] at h0
            injection h0 with h0
            injection h0 with h0a h0b
            rw [updFn_self, h0a]
          · rw [alLookup_alInsert_ne k k0 (t, v1) sc.map hk] at h0
            rw [updFn_ne g _ hk]
            exact hInv2.mapGhost k0 la0 v0 h0
        · intro k0 la0 hg hnone
          by_cases hk : k0 = k
          · subst hk
            rw [alLookup_alInsert_self] at hnone
            exact Option.noConfusion hnone
          · rw [updFn_ne g _ hk] at hg
            rw [alLookup_alInsert_ne k k0 (t, v1) sc.map hk] at hnone
            exact hInv2.ghostGone k0 la0 hg hnone
      | none =>
        simp only [hl, Option.map_some', Option.some.injEq] at hs
        subst hs
        have hspec : specStep (V := V) d t g (Op.read k) = g := by
          cases hgk : g k with
          | none => simp only [specStep, hgk]
          | some la0 =>
            have h2 := hInv2.ghostGone k la0 hgk hl
            have hnc : ¬ t - la0 < d := by omega
            simp only [specStep, hgk]
            rw [if_neg hnc]
        rw [hspec]
        exact hInv2

/-- The fresh container satisfies the invariant with the empty reference
map. -/
theorem inv_new (d : Nat) :
    Inv d 0 (ExpiringHashMap.new d : ExpiringHashMap K V) (fun _ => none) := by
  refine ⟨rfl, ?_, ?_, ?_, ?_, ?_, ?_⟩
  · simp [ExpiringHashMap.new]
  · exact List.Pairwise.nil
  · intro k la v h
    simp [ExpiringHashMap.new, alLookup] at h
  · intro k la v h
    simp [ExpiringHashMap.new, alLookup] at h
  · intro k la v h
    simp [ExpiringHashMap.new, alLookup] at h
  · intro k la hg
    exact Option.noConfusion hg

/-- Running a trace with nondecreasing timestamps preserves the invariant,
ending at the trace's last timestamp and the reference map of the trace. -/
theorem runFrom_inv {d : Nat} (tr : List (Nat × Op K V)) :
    ∀ (T : Nat) (s s' : ExpiringHashMap K V) (g : K → Option Nat),
      Inv d T s g → okTimes T tr = true → runFrom s tr = some s' →
      Inv d (endTime T tr) s' (specRun d g tr) := by
  induction tr with
  | nil =>
    intro T s s' g hInv hok hr
    rw [runFrom] at hr
    injection hr with hr
    subst hr
    exact hInv
  | cons e rest ih =>
    obtain ⟨t, op⟩ := e
    intro T s s' g hInv hok hr
    rw [okTimes] at hok
    simp only [Bool.and_eq_true, decide_eq_true_eq] at hok
    cases hstep : stepOp t s op with
    | none =>
      rw [runFrom, hstep] at hr
      exact Option.noConfusion hr
    | some s1 =>
      rw [runFrom] at hr
      simp only [hstep] at hr
      have hInv1 := stepOp_inv hInv hok.1 hstep
      rw [endTime, specRun]
      exact ih t s1 s' _ hInv1 hok.2 hr

/-- Under the invariant, `get` returns a value for `k` exactly when the
reference last-access stamp of `k` is strictly younger than the ttl. -/
theorem visibleKey_inv {d T now : Nat} {s : ExpiringHashMap K V}
    {g : K → Option Nat} (hInv : Inv d T s g) (hT : T ≤ now) (hd : d ≤ now)
    (k : K) :
    visibleKey now k s = true ↔ ∃ la, g k = some la ∧ now - la < d := by
  obtain ⟨sc, hc⟩ : ∃ sc, s.cleanup now = some sc :=
    ⟨_, cleanup_of_le s (by rw [hInv.dEq]; exact hd)⟩
  obtain ⟨hInv2, hdd, hchar⟩ := cleanup_inv hInv hT hc
  rw [visibleKey, ExpiringHashMap.get, hc]
  cases hl : alLookup k sc.map with
  | some e =>
    obtain ⟨la1, v1⟩ := e
    simp only [hl]
    constructor
    · intro _
      exact ⟨la1, hInv2.mapGhost k la1 v1 hl, ((hchar k la1 v1).mp hl).2⟩
    · intro _
      trivial
  | none =>
    simp only [hl]
    constructor
    · intro h
      exact Bool.noConfusion h
    · rintro ⟨la, hg, hlt⟩
      exfalso
      cases h2 : alLookup k s.map with
      | none =>
        have := hInv.ghostGone k la hg h2
        omega
      | some e2 =>
        obtain ⟨la2, v2⟩ := e2
        have hla2 : la2 = la := by
          have := hInv.mapGhost k la2 v2 h2
          rw [hg] at this
          injection this with this
          exact this.symm
        subst hla2
        have := (hchar k la2 v2).mpr ⟨h2, hlt⟩
        rw [hl] at this
        exact Option.noConfusion this

/-- A surviving entry's stored pair is unchanged by cleanup. -/
theorem cleanupLoop_map_some (deadline : Nat) {k : K} {e : Nat × V}
    (m : List (K × Nat × V)) (l : List (Nat × K)) :
    alLookup k (cleanupLoop deadline m l).1 = some e →
      alLookup k m = some e := by
  induction m, l using @cleanupLoop.induct K V _ deadline with
  | case1 m =>
    rw [cleanupLoop_nil]
    exact id
  | case2 m t k' rest ht =>
    rw [cleanupLoop_stop m rest ht]
    exact id
  | case3 m t k' rest ht la v hl hla ih =>
    rw [cleanupLoop_requeue m rest ht hl hla]
    exact ih
  | case4 m t k' rest ht la v hl hla ih =>
    rw [cleanupLoop_evict m rest ht hl hla]
    intro h
    have h2 := ih h
    by_cases hk : k = k'
    · subst hk
      rw [alLookup_alErase_self] at h2
      exact Option.noConfusion h2
    · rw [alLookup_alErase_ne k' k m hk] at h2
      exact h2
  | case5 m t k' rest ht hl ih =>
    rw [cleanupLoop_orphan m rest ht hl]
    exact ih

/-- The decidable tracking check implies the tracking invariant. -/
theorem trackedP_of_trackedB {s : ExpiringHashMap K V}
    (h : trackedB s = true) : TrackedP s.map s.access_log := by
  intro k la v hl
  have hm := mem_of_alLookup_some k (la, v) s.map hl
  rw [trackedB, List.all_eq_true] at h
  have h2 := h _ hm
  rw [List.any_eq_true] at h2
  obtain ⟨a, ha, hpa⟩ := h2
  simp only [Bool.and_eq_true, decide_eq_true_eq] at hpa
  refine ⟨a.1, ?_, hpa.2⟩
  have : (a.1, k) = a := by
    rw [← hpa.1]
  rw [this]
  exact ha

/-- The decidable stamp check bounds the `last_access` of every entry the
lookup can return. -/
theorem stamped_of_stampedBy {now : Nat} {s : ExpiringHashMap K V}
    (h : stampedBy now s = true) :
    ∀ k la v, alLookup k s.map = some (la, v) → la ≤ now := by
  intro k la v hl
  rw [stampedBy, List.all_eq_true] at h
  have := h _ (mem_of_alLookup_some k (la, v) s.map hl)
  simpa using this

/-- Cleanup does not change the configured ttl. -/
theorem cleanup_duration {t : Nat} {s s1 : ExpiringHashMap K V}
    (hc : s.cleanup t = some s1) : s1.duration = s.duration := by
  obtain ⟨_, rfl⟩ := cleanup_eq hc
  rfl

/-- The invariant implies the decidable tracking check. -/
theorem trackedB_of_inv {d T : Nat} {s : ExpiringHashMap K V}
    {g : K → Option Nat} (hInv : Inv d T s g) : trackedB s = true := by
  rw [trackedB, List.all_eq_true]
  intro e he
  have hl : alLookup e.1 s.map = some e.2 :=
    alLookup_of_mem_nodup e.1 e.2 s.map hInv.nodup he
  obtain ⟨t0, hmem, hle⟩ := hInv.tracked e.1 e.2.1 e.2.2 hl
  rw [List.any_eq_true]
  refine ⟨(t0, e.1), hmem, ?_⟩
  simp [hle]

end Invariant

section Claims

/-- C1 counterexample: with ttl 5, an insert at instant 3 (elapsed time
since the clock's epoch smaller than the ttl) does not succeed — the
deadline computation `checked_sub(..).expect(..)` panics (modelled as
`none`), contradicting the claim that the subtraction saturates and the
operation still succeeds. -/
theorem C1_counterexample :
    3 < 5 ∧
      (ExpiringHashMap.new (K := Nat) (V := Nat) 5).insert 3 0 0 = none := by
  exact ⟨by decide, rfl⟩

/-- C1 (amended): if the elapsed time since the clock's epoch is smaller
than the configured ttl when cleanup computes its deadline, the checked
subtraction yields no instant and the Rust code panics via `expect` — so
`cleanup`, and with it `insert` and `get`, fail instead of saturating
(`remove` and `new` remain infallible by their types). -/
theorem C1_underflow_panics {K V : Type} [DecidableEq K]
    (s : ExpiringHashMap K V) (now : Nat) (k : K) (v : V)
    (h : now < s.duration) :
    s.cleanup now = none ∧ s.insert now k v = none ∧ s.get now k = none := by
  have hc := cleanup_eq_none s h
  refine ⟨hc, ?_, ?_⟩
  · rw [ExpiringHashMap.insert, hc]
  · rw [ExpiringHashMap.get, hc]

/-- C1 witness: the amended claim at ttl 5, instant 3, key 0, value 0. -/
theorem C1_witness :
    3 < (ExpiringHashMap.new (K := Nat) (V := Nat) 5).duration ∧
      ((ExpiringHashMap.new (K := Nat) (V := Nat) 5).cleanup 3 = none ∧
        (ExpiringHashMap.new (K := Nat) (V := Nat) 5).insert 3 0 0 = none ∧
        (ExpiringHashMap.new (K := Nat) (V := Nat) 5).get 3 0 = none) :=
  ⟨by decide, C1_underflow_panics (ExpiringHashMap.new 5) 3 0 0 (by decide)⟩

/-- C4 counterexample: ttl 10, key 0 inserted at instant 10 (a reachable
state), cleaned up at instant 20 — the entry's age is exactly the ttl
(20 − 10 = 10), yet cleanup evicts it, contradicting the claim that an
entry whose age equals the ttl survives. -/
theorem C4_counterexample :
    (ExpiringHashMap.new (K := Nat) (V := Nat) 10).insert 10 0 1 =
        some (none, ExpiringHashMap.mk [(0, 10, 1)] [(10, 0)] 10) ∧
      20 - 10 = 10 ∧
      (ExpiringHashMap.mk [(0, 10, 1)] [(10, 0)] 10 :
          ExpiringHashMap Nat Nat).cleanup 20 =
        some (ExpiringHashMap.mk [] [] 10) := by
  refine ⟨?_, rfl, ?_⟩
  · simp [ExpiringHashMap.insert, ExpiringHashMap.new, ExpiringHashMap.cleanup,
      checkedSub, cleanupLoop, alLookup, alErase, alInsert, pushLog]
  · simp [ExpiringHashMap.cleanup, checkedSub, cleanupLoop, alLookup, alErase,
      pushLog]

/-- C4 (amended): an entry is eligible for eviction exactly when
`now − last-access ≥ ttl`: after a successful cleanup pass at `now` (over a
sorted, tracked log with entry stamps at or before `now`), an entry
survives iff `now − last-access < ttl`; in particular an entry whose age
equals the ttl exactly is evicted. -/
theorem C4_eviction_boundary {K V : Type} [DecidableEq K]
    {s s1 : ExpiringHashMap K V} {now : Nat}
    (hsort : LogSorted s.access_log) (htr : trackedB s = true)
    (hst : stampedBy now s = true) (hc : s.cleanup now = some s1)
    (k : K) (la : Nat) (v : V) :
    alLookup k s1.map = some (la, v) ↔
      alLookup k s.map = some (la, v) ∧ now - la < s.duration := by
  obtain ⟨hdt, rfl⟩ := cleanup_eq hc
  constructor
  · intro h
    have h2 := cleanupLoop_map_some (now - s.duration) s.map s.access_log h
    refine ⟨h2, ?_⟩
    have hla : la ≤ now := stamped_of_stampedBy hst k la v h2
    by_cases h3 : now - s.duration < la
    · omega
    · exfalso
      obtain ⟨t0, hmem, hle⟩ := trackedP_of_trackedB htr k la v h2
      have h4 := cleanupLoop_map_stale (now - s.duration) s.map s.access_log
        hsort h2 (by omega) ⟨t0, hmem, hle⟩
      rw [h] at h4
      exact Option.noConfusion h4
  · rintro ⟨h2, h3⟩
    have hla : la ≤ now := stamped_of_stampedBy hst k la v h2
    exact cleanupLoop_map_fresh (now - s.duration) s.map s.access_log h2
      (by omega)

/-- C4 witness: the amended boundary at the counterexample state — the
entry aged exactly ttl is evicted, as `now − last-access < ttl` fails. -/
theorem C4_witness :
    alLookup 0 (ExpiringHashMap.mk ([] : List (Nat × Nat × Nat)) [] 10).map =
        some (10, 1) ↔
      alLookup 0 (ExpiringHashMap.mk [(0, 10, 1)] [(10, 0)] 10).map =
          some (10, 1) ∧
        20 - 10 <
          (ExpiringHashMap.mk [((0 : Nat), (10 : Nat), (1 : Nat))]
            [(10, 0)] 10).duration :=
  @C4_eviction_boundary Nat Nat _
    (ExpiringHashMap.mk [(0, 10, 1)] [(10, 0)] 10)
    (ExpiringHashMap.mk [] [] 10) 20 (by decide) (by decide) (by decide)
    (by simp [ExpiringHashMap.cleanup, checkedSub, cleanupLoop, alLookup,
      alErase, pushLog])
    0 10 1

/-- C10: `remove` performs neither a cleanup pass nor an expiry check: in
the reachable state with ttl 10 holding key 0 last accessed at instant 10,
at instant 30 (age 20 > ttl) `remove` still finds the entry and returns
its value 7 (leaving the orphaned access record in the log), whereas `get`
at the same instant returns nothing. -/
theorem C10_remove_expired :
    (ExpiringHashMap.new (K := Nat) (V := Nat) 10).insert 10 0 7 =
        some (none, ExpiringHashMap.mk [(0, 10, 7)] [(10, 0)] 10) ∧
      10 < 30 - 10 ∧
      (ExpiringHashMap.mk [(0, 10, 7)] [(10, 0)] 10 :
          ExpiringHashMap Nat Nat).remove 0 =
        (some 7, ExpiringHashMap.mk [] [(10, 0)] 10) ∧
      (ExpiringHashMap.mk [(0, 10, 7)] [(10, 0)] 10 :
          ExpiringHashMap Nat Nat).get 30 0 =
        some (none, ExpiringHashMap.mk [] [] 10) := by
  refine ⟨?_, by decide, ?_, ?_⟩
  · simp [ExpiringHashMap.insert, ExpiringHashMap.new, ExpiringHashMap.cleanup,
      checkedSub, cleanupLoop, alLookup, alErase, alInsert, pushLog]
  · simp [ExpiringHashMap.remove, alLookup, alErase]
  · simp [ExpiringHashMap.get, ExpiringHashMap.cleanup, checkedSub,
      cleanupLoop, alLookup, alErase, alInsert, pushLog]

/-- C3 counterexample: ttl 10 — the first insert of key 0 pushes one access
record; a second insert of the same key (an overwrite) and a successful get
push none: the access log is still the single record `[(10, 0)]` after all
three accesses, contradicting the claim that every insert and every
successful get adds a record. -/
theorem C3_counterexample :
    (ExpiringHashMap.new (K := Nat) (V := Nat) 10).insert 10 0 1 =
        some (none, ExpiringHashMap.mk [(0, 10, 1)] [(10, 0)] 10) ∧
      (ExpiringHashMap.mk [(0, 10, 1)] [(10, 0)] 10 :
          ExpiringHashMap Nat Nat).insert 10 0 2 =
        some (some 1, ExpiringHashMap.mk [(0, 10, 2)] [(10, 0)] 10) ∧
      (ExpiringHashMap.mk [(0, 10, 2)] [(10, 0)] 10 :
          ExpiringHashMap Nat Nat).get 11 0 =
        some (some 2, ExpiringHashMap.mk [(0, 11, 2)] [(10, 0)] 10) ∧
      ([((10 : Nat), (0 : Nat))] : List (Nat × Nat)).length = 1 := by
  refine ⟨?_, ?_, ?_, rfl⟩
  · simp [ExpiringHashMap.insert, ExpiringHashMap.new, ExpiringHashMap.cleanup,
      checkedSub, cleanupLoop, alLookup, alErase, alInsert, pushLog]
  · simp [ExpiringHashMap.insert, ExpiringHashMap.cleanup, checkedSub,
      cleanupLoop, alLookup, alErase, alInsert, pushLog]
  · simp [ExpiringHashMap.get, ExpiringHashMap.cleanup, checkedSub,
      cleanupLoop, alLookup, alErase, alInsert, pushLog]

/-- C3 (amended): a new `(now, key)` access record is pushed only by an
insert whose key is absent from the post-cleanup table; an insert that
overwrites a present key, and a get (hit or miss), leave the access log
exactly as the cleanup pass left it. Repeated accesses to a live key do not
produce repeated records — freshness of re-accessed keys is restored lazily
by cleanup's own re-queueing. -/
theorem C3_records {K V : Type} [DecidableEq K]
    (s sc : ExpiringHashMap K V) (now : Nat) (k : K) (v : V)
    (hc : s.cleanup now = some sc) :
    (alLookup k sc.map = none →
        ∃ r s2, s.insert now k v = some (r, s2) ∧
          s2.access_log = pushLog (now, k) sc.access_log) ∧
      (∀ la w, alLookup k sc.map = some (la, w) →
        ∃ r s2, s.insert now k v = some (r, s2) ∧
          s2.access_log = sc.access_log) ∧
      (∀ r s2, s.get now k = some (r, s2) →
        s2.access_log = sc.access_log) := by
  refine ⟨?_, ?_, ?_⟩
  · intro hl
    refine ⟨none,
      { sc with
        map := alInsert k (now, v) sc.map,
        access_log := pushLog (now, k) sc.access_log },
      ?_, rfl⟩
    rw [ExpiringHashMap.insert, hc]
    simp only [hl]
  · intro la w hl
    refine ⟨some w, { sc with map := alInsert k (now, v) sc.map }, ?_, rfl⟩
    rw [ExpiringHashMap.insert, hc]
    simp only [hl]
  · intro r s2 hg
    rw [ExpiringHashMap.get, hc] at hg
    cases hl : alLookup k sc.map with
    | some e =>
      obtain ⟨la, w⟩ := e
      simp only [hl, Option.some.injEq] at hg
      injection hg with hg1 hg2
      rw [← hg2]
    | none =>
      simp only [hl, Option.some.injEq] at hg
      injection hg with hg1 hg2
      rw [← hg2]

/-- C3 witness: the amended claim at ttl 10, on the reachable state holding
key 0 stamped 10, inserting key 0 again at instant 10. -/
theorem C3_witness :
    (alLookup 0 (ExpiringHashMap.mk [((0 : Nat), (10 : Nat), (1 : Nat))]
          [(10, 0)] 10).map = none →
        ∃ r s2, (ExpiringHashMap.mk [(0, 10, 1)] [(10, 0)] 10 :
            ExpiringHashMap Nat Nat).insert 10 0 2 = some (r, s2) ∧
          s2.access_log = pushLog (10, 0)
            (ExpiringHashMap.mk [((0 : Nat), (10 : Nat), (1 : Nat))]
              [(10, 0)] 10).access_log) ∧
      (∀ la w, alLookup 0 (ExpiringHashMap.mk [((0 : Nat), (10 : Nat),
            (1 : Nat))] [(10, 0)] 10).map = some (la, w) →
        ∃ r s2, (ExpiringHashMap.mk [(0, 10, 1)] [(10, 0)] 10 :
            ExpiringHashMap Nat Nat).insert 10 0 2 = some (r, s2) ∧
          s2.access_log = (ExpiringHashMap.mk [((0 : Nat), (10 : Nat),
            (1 : Nat))] [(10, 0)] 10).access_log) ∧
      (∀ r s2, (ExpiringHashMap.mk [(0, 10, 1)] [(10, 0)] 10 :
          ExpiringHashMap Nat Nat).get 10 0 = some (r, s2) →
        s2.access_log = (ExpiringHashMap.mk [((0 : Nat), (10 : Nat),
          (1 : Nat))] [(10, 0)] 10).access_log) :=
  C3_records (ExpiringHashMap.mk [(0, 10, 1)] [(10, 0)] 10)
    (ExpiringHashMap.mk [(0, 10, 1)] [(10, 0)] 10) 10 0 2
    (by simp [ExpiringHashMap.cleanup, checkedSub, cleanupLoop, alLookup,
      alErase, pushLog])

/-- C5: `insert` first runs cleanup, then stores the entry with its
`last_access` stamped with the current instant, and returns the value
stored for that key in the post-cleanup table when present, nothing
otherwise; other keys are untouched. -/
theorem C5_insert {K V : Type} [DecidableEq K]
    (s sc : ExpiringHashMap K V) (now : Nat) (k : K) (v : V)
    (hc : s.cleanup now = some sc) :
    ∃ s2, s.insert now k v =
        some ((alLookup k sc.map).map (fun e => e.2), s2) ∧
      alLookup k s2.map = some (now, v) ∧
      (∀ k', k' ≠ k → alLookup k' s2.map = alLookup k' sc.map) ∧
      s2.duration = s.duration := by
  have hdur := cleanup_duration hc
  cases hl : alLookup k sc.map with
  | some prev =>
    refine ⟨{ sc with map := alInsert k (now, v) sc.map }, ?_,
      alLookup_alInsert_self k (now, v) sc.map, ?_, hdur⟩
    · rw [ExpiringHashMap.insert, hc]
      simp only [hl, Option.map_some']
    · intro k' hk
      exact alLookup_alInsert_ne k k' (now, v) sc.map hk
  | none =>
    refine ⟨{ sc with
              map := alInsert k (now, v) sc.map,
              access_log := pushLog (now, k) sc.access_log }, ?_,
      alLookup_alInsert_self k (now, v) sc.map, ?_, hdur⟩
    · rw [ExpiringHashMap.insert, hc]
      simp only [hl, Option.map_none']
    · intro k' hk
      exact alLookup_alInsert_ne k k' (now, v) sc.map hk

/-- C5 witness: inserting key 0 value 2 at instant 10 over the reachable
state holding key 0 stamped 10 with value 1. -/
theorem C5_witness :
    ∃ s2, (ExpiringHashMap.mk [(0, 10, 1)] [(10, 0)] 10 :
        ExpiringHashMap Nat Nat).insert 10 0 2 =
        some ((alLookup 0 (ExpiringHashMap.mk [((0 : Nat), (10 : Nat),
          (1 : Nat))] [(10, 0)] 10).map).map (fun e => e.2), s2) ∧
      alLookup 0 s2.map = some (10, 2) ∧
      (∀ k', k' ≠ 0 → alLookup k' s2.map =
        alLookup k' (ExpiringHashMap.mk [((0 : Nat), (10 : Nat), (1 : Nat))]
          [(10, 0)] 10).map) ∧
      s2.duration = (ExpiringHashMap.mk [((0 : Nat), (10 : Nat), (1 : Nat))]
        [(10, 0)] 10).duration :=
  C5_insert (ExpiringHashMap.mk [(0, 10, 1)] [(10, 0)] 10)
    (ExpiringHashMap.mk [(0, 10, 1)] [(10, 0)] 10) 10 0 2
    (by simp [ExpiringHashMap.cleanup, checkedSub, cleanupLoop, alLookup,
      alErase, pushLog])

/-- C6: `get` first runs cleanup, then looks the key up: on a hit it sets
the entry's `last_access` to the current instant, keeps the value, touches
no other key and no access record, and returns the stored value; on a miss
it returns nothing and leaves the post-cleanup state exactly as it was
(never inserting). -/
theorem C6_get {K V : Type} [DecidableEq K]
    (s sc : ExpiringHashMap K V) (now : Nat) (k : K)
    (hc : s.cleanup now = some sc) :
    (∀ la v, alLookup k sc.map = some (la, v) →
        ∃ s2, s.get now k = some (some v, s2) ∧
          alLookup k s2.map = some (now, v) ∧
          (∀ k', k' ≠ k → alLookup k' s2.map = alLookup k' sc.map) ∧
          s2.access_log = sc.access_log ∧ s2.duration = s.duration) ∧
      (alLookup k sc.map = none → s.get now k = some (none, sc)) := by
  have hdur := cleanup_duration hc
  constructor
  · intro la v hl
    refine ⟨{ sc with map := alInsert k (now, v) sc.map }, ?_,
      alLookup_alInsert_self k (now, v) sc.map, ?_, rfl, hdur⟩
    · rw [ExpiringHashMap.get, hc]
      simp only [hl]
    · intro k' hk
      exact alLookup_alInsert_ne k k' (now, v) sc.map hk
  · intro hl
    rw [ExpiringHashMap.get, hc]
    simp only [hl]

/-- C6 witness: getting key 0 at instant 11 on the reachable state holding
key 0 stamped 10 with value 1. -/
theorem C6_witness :
    (∀ la v, alLookup 0 (ExpiringHashMap.mk [((0 : Nat), (10 : Nat),
          (1 : Nat))] [(10, 0)] 10).map = some (la, v) →
        ∃ s2, (ExpiringHashMap.mk [(0, 10, 1)] [(10, 0)] 10 :
            ExpiringHashMap Nat Nat).get 11 0 = some (some v, s2) ∧
          alLookup 0 s2.map = some (11, v) ∧
          (∀ k', k' ≠ 0 → alLookup k' s2.map =
            alLookup k' (ExpiringHashMap.mk [((0 : Nat), (10 : Nat),
              (1 : Nat))] [(10, 0)] 10).map) ∧
          s2.access_log = (ExpiringHashMap.mk [((0 : Nat), (10 : Nat),
            (1 : Nat))] [(10, 0)] 10).access_log ∧
          s2.duration = (ExpiringHashMap.mk [((0 : Nat), (10 : Nat),
            (1 : Nat))] [(10, 0)] 10).duration) ∧
      (alLookup 0 (ExpiringHashMap.mk [((0 : Nat), (10 : Nat), (1 : Nat))]
          [(10, 0)] 10).map = none →
        (ExpiringHashMap.mk [(0, 10, 1)] [(10, 0)] 10 :
            ExpiringHashMap Nat Nat).get 11 0 =
          some (none, ExpiringHashMap.mk [(0, 10, 1)] [(10, 0)] 10)) :=
  C6_get (ExpiringHashMap.mk [(0, 10, 1)] [(10, 0)] 10)
    (ExpiringHashMap.mk [(0, 10, 1)] [(10, 0)] 10) 11 0
    (by simp [ExpiringHashMap.cleanup, checkedSub, cleanupLoop, alLookup,
      alErase, pushLog])

/-- C7: `remove` returns the stored value when the key is present and
nothing when absent (never an error — it is total); it deletes exactly that
key from the table, leaves the access log and ttl completely unchanged, and
a remove of an absent key changes no state at all. -/
theorem C7_remove {K V : Type} [DecidableEq K]
    (s : ExpiringHashMap K V) (k : K) :
    (s.remove k).1 = (alLookup k s.map).map (fun e => e.2) ∧
      (s.remove k).2.access_log = s.access_log ∧
      (s.remove k).2.duration = s.duration ∧
      alLookup k (s.remove k).2.map = none ∧
      (∀ k', k' ≠ k → alLookup k' (s.remove k).2.map = alLookup k' s.map) ∧
      (alLookup k s.map = none → (s.remove k).2 = s) := by
  refine ⟨rfl, rfl, rfl, alLookup_alErase_self k s.map, ?_, ?_⟩
  · intro k' hk
    exact alLookup_alErase_ne k k' s.map hk
  · intro h
    show { s with map := alErase k s.map } = s
    rw [alErase_of_lookup_none k s.map h]

/-- C7 witness: removing present key 0 and (by the frame clause) any key
from the reachable state holding key 0 stamped 10 with value 7. -/
theorem C7_witness :
    ((ExpiringHashMap.mk [(0, 10, 7)] [(10, 0)] 10 :
        ExpiringHashMap Nat Nat).remove 0).1 =
        (alLookup 0 (ExpiringHashMap.mk [((0 : Nat), (10 : Nat), (7 : Nat))]
          [(10, 0)] 10).map).map (fun e => e.2) ∧
      ((ExpiringHashMap.mk [(0, 10, 7)] [(10, 0)] 10 :
          ExpiringHashMap Nat Nat).remove 0).2.access_log =
        (ExpiringHashMap.mk [((0 : Nat), (10 : Nat), (7 : Nat))]
          [(10, 0)] 10).access_log ∧
      ((ExpiringHashMap.mk [(0, 10, 7)] [(10, 0)] 10 :
          ExpiringHashMap Nat Nat).remove 0).2.duration =
        (ExpiringHashMap.mk [((0 : Nat), (10 : Nat), (7 : Nat))]
          [(10, 0)] 10).duration ∧
      alLookup 0 ((ExpiringHashMap.mk [(0, 10, 7)] [(10, 0)] 10 :
          ExpiringHashMap Nat Nat).remove 0).2.map = none ∧
      (∀ k', k' ≠ 0 → alLookup k'
          ((ExpiringHashMap.mk [(0, 10, 7)] [(10, 0)] 10 :
            ExpiringHashMap Nat Nat).remove 0).2.map =
        alLookup k' (ExpiringHashMap.mk [((0 : Nat), (10 : Nat), (7 : Nat))]
          [(10, 0)] 10).map) ∧
      (alLookup 0 (ExpiringHashMap.mk [((0 : Nat), (10 : Nat), (7 : Nat))]
          [(10, 0)] 10).map = none →
        ((ExpiringHashMap.mk [(0, 10, 7)] [(10, 0)] 10 :
            ExpiringHashMap Nat Nat).remove 0).2 =
          ExpiringHashMap.mk [(0, 10, 7)] [(10, 0)] 10) :=
  C7_remove (ExpiringHashMap.mk [(0, 10, 7)] [(10, 0)] 10) 0

/-- C2 counterexample: ttl 10, key 0 inserted at instant 10. At instant 20
the key's true last-access time is within the ttl of the current time
(20 − 10 ≤ 10), yet `get` returns nothing: the set of keys visible via get
is not the set of keys whose last-access age is within the ttl — visibility
is strict at the boundary. -/
theorem C2_counterexample :
    run 10 [(10, Op.ins (0 : Nat) (7 : Nat))] =
        some (ExpiringHashMap.mk [(0, 10, 7)] [(10, 0)] 10) ∧
      specRun 10 (fun _ => none) [(10, Op.ins (0 : Nat) (7 : Nat))] 0 =
        some 10 ∧
      20 - 10 ≤ 10 ∧
      visibleKey 20 0 (ExpiringHashMap.mk [(0, 10, 7)] [(10, 0)] 10) =
        false := by
  refine ⟨?_, rfl, by decide, ?_⟩
  · simp [run, runFrom, stepOp, ExpiringHashMap.insert, ExpiringHashMap.new,
      ExpiringHashMap.cleanup, checkedSub, cleanupLoop, alLookup, alErase,
      alInsert, pushLog]
  · simp [visibleKey, ExpiringHashMap.get, ExpiringHashMap.cleanup,
      checkedSub, cleanupLoop, alLookup, alErase, alInsert, pushLog]

/-- C2 (amended): for any finite trace of insert/get/remove calls with
nondecreasing timestamps that runs without panicking, at any later instant
`now` (at least the ttl after the epoch), the set of keys for which get
returns a value is exactly the set of keys whose true last-access time is
*strictly* within the ttl of the current time (`now − last-access < ttl`) —
regardless of which earlier operations triggered cleanup passes. The true
last-access times are given by the reference semantics `specRun`, which
tracks stamps directly from the trace with no freshness index and no
cleanup. -/
theorem C2_visibility {K V : Type} [DecidableEq K] (d : Nat)
    (tr : List (Nat × Op K V)) (now : Nat) (k : K)
    (s : ExpiringHashMap K V) (hok : okTimes 0 tr = true)
    (hend : endTime 0 tr ≤ now) (hd : d ≤ now) (hrun : run d tr = some s) :
    visibleKey now k s = specVisible d tr now k := by
  have hInv := runFrom_inv tr 0 (ExpiringHashMap.new d) s (fun _ => none)
    (inv_new d) hok hrun
  have hchar := visibleKey_inv hInv hend hd k
  cases hg : specRun d (fun _ => none) tr k with
  | some la =>
    simp only [specVisible, hg]
    by_cases hlt : now - la < d
    · rw [hchar.mpr ⟨la, hg, hlt⟩, decide_eq_true hlt]
    · have hv : visibleKey now k s = false := by
        cases hv2 : visibleKey now k s with
        | false => rfl
        | true =>
          exfalso
          obtain ⟨la2, hg2, hlt2⟩ := hchar.mp hv2
          rw [hg] at hg2
          injection hg2 with hg2
          omega
      rw [hv, decide_eq_false hlt]
  | none =>
    simp only [specVisible, hg]
    cases hv : visibleKey now k s with
    | false => rfl
    | true =>
      exfalso
      obtain ⟨la2, hg2, _⟩ := hchar.mp hv
      rw [hg] at hg2
      exact Option.noConfusion hg2

/-- C2 witness: the amended equality on the one-insert trace at instant 15
(age 5, strictly within the ttl). -/
theorem C2_witness :
    visibleKey 15 0 (ExpiringHashMap.mk [(0, 10, 7)] [(10, 0)] 10) =
      specVisible 10 [(10, Op.ins (0 : Nat) (7 : Nat))] 15 0 :=
  C2_visibility 10 [(10, Op.ins 0 7)] 15 0
    (ExpiringHashMap.mk [(0, 10, 7)] [(10, 0)] 10) rfl (by decide) (by decide)
    (by simp [run, runFrom, stepOp, ExpiringHashMap.insert,
      ExpiringHashMap.new, ExpiringHashMap.cleanup, checkedSub, cleanupLoop,
      alLookup, alErase, alInsert, pushLog])

/-- C8: the cleanup loop terminates on every finite log: `cleanupIters`
counts its iterations (heap pops), and that count is bounded by the number
of records whose instant is at or before the deadline, because every record
the pass re-queues carries an instant strictly past the deadline (second
conjunct) and so is never popped again within the same pass. -/
theorem C8_cleanup_terminates {K V : Type} [DecidableEq K] (deadline : Nat)
    (m : List (K × Nat × V)) (l : List (Nat × K)) :
    cleanupIters deadline m l ≤
        l.countP (fun a => decide (a.1 ≤ deadline)) ∧
      ∀ a ∈ (cleanupLoop deadline m l).2, a ∈ l ∨ deadline < a.1 := by
  constructor
  · induction m, l using @cleanupIters.induct K V _ deadline with
    | case1 m =>
      rw [cleanupIters_nil]
      exact Nat.zero_le _
    | case2 m t k' rest ht =>
      rw [cleanupIters_stop m rest ht]
      exact Nat.zero_le _
    | case3 m t k' rest ht la v hl hla ih =>
      have h2 : (pushLog (la, k') rest).countP
          (fun a => decide (a.1 ≤ deadline)) =
            rest.countP (fun a => decide (a.1 ≤ deadline)) := by
        rw [countP_pushLog]
        have hn : ¬ ((la : Nat) ≤ deadline) := by omega
        simp [hn]
      have h3 : ((t, k') :: rest).countP (fun a => decide (a.1 ≤ deadline)) =
          rest.countP (fun a => decide (a.1 ≤ deadline)) + 1 := by
        rw [List.countP_cons]
        have hp : (t : Nat) ≤ deadline := by omega
        simp [hp]
      rw [cleanupIters_requeue m rest ht hl hla, h3]
      rw [h2] at ih
      omega
    | case4 m t k' rest ht la v hl hla ih =>
      have h3 : ((t, k') :: rest).countP (fun a => decide (a.1 ≤ deadline)) =
          rest.countP (fun a => decide (a.1 ≤ deadline)) + 1 := by
        rw [List.countP_cons]
        have hp : (t : Nat) ≤ deadline := by omega
        simp [hp]
      rw [cleanupIters_evict m rest ht hl hla, h3]
      omega
    | case5 m t k' rest ht hl ih =>
      have h3 : ((t, k') :: rest).countP (fun a => decide (a.1 ≤ deadline)) =
          rest.countP (fun a => decide (a.1 ≤ deadline)) + 1 := by
        rw [List.countP_cons]
        have hp : (t : Nat) ≤ deadline := by omega
        simp [hp]
      rw [cleanupIters_orphan m rest ht hl, h3]
      omega
  · intro a ha
    exact cleanupLoop_log_mem deadline m l a ha

/-- C8 witness: deadline 10, one live entry stamped 15, a stale due record
at instant 4 (which gets re-queued at 15) and a record at 20: one iteration
against one due record. -/
theorem C8_witness :
    cleanupIters 10 [((0 : Nat), (15 : Nat), (7 : Nat))] [(4, 0), (20, 1)] ≤
        ([((4 : Nat), (0 : Nat)), (20, 1)]).countP
          (fun a => decide (a.1 ≤ 10)) ∧
      ∀ a ∈ (cleanupLoop 10 [((0 : Nat), (15 : Nat), (7 : Nat))]
          [(4, 0), (20, 1)]).2,
        a ∈ [((4 : Nat), (0 : Nat)), (20, 1)] ∨ 10 < a.1 :=
  C8_cleanup_terminates 10 [(0, 15, 7)] [(4, 0), (20, 1)]

/-- C9 (implicit invariant): after any trace of public operations run from
`new` with nondecreasing timestamps, every key present in the entry table
has at least one record in the access log whose instant is at or before
that entry's current `last_access` — so a live key can never become
untracked by cleanup. -/
theorem C9_live_keys_tracked {K V : Type} [DecidableEq K] (d : Nat)
    (tr : List (Nat × Op K V)) (s : ExpiringHashMap K V)
    (hok : okTimes 0 tr = true) (hrun : run d tr = some s) :
    trackedB s = true :=
  trackedB_of_inv (runFrom_inv tr 0 (ExpiringHashMap.new d) s (fun _ => none)
    (inv_new d) hok hrun)

/-- C9 witness: a trace exercising insert, get (refresh), remove and a
second insert, ttl 10: the final state's table is fully tracked by the
log. -/
theorem C9_witness :
    trackedB (ExpiringHashMap.mk [(1, 14, 5)] [(10, 0), (14, 1)] 10) =
      true :=
  C9_live_keys_tracked 10
    [(10, Op.ins 0 7), (12, Op.read 0), (13, Op.del 0), (14, Op.ins 1 5)]
    (ExpiringHashMap.mk [(1, 14, 5)] [(10, 0), (14, 1)] 10) rfl
    (by simp [run, runFrom, stepOp, ExpiringHashMap.insert,
      ExpiringHashMap.get, ExpiringHashMap.remove, ExpiringHashMap.new,
      ExpiringHashMap.cleanup, checkedSub, cleanupLoop, alLookup, alErase,
      alInsert, pushLog])

end Claims

end StoryTeller
